import Mathlib

/-!
Verification of the OLIVIA dependency-network engine against its
natural-language specification.

The repository's files are user-guide notebooks that exercise the library
(`olivia.model`, `olivia.packagemetrics`, `olivia.coupling`,
`olivia.immunization`); the library modules themselves are not among the
staged sources, so the engine is modelled here from the specification.
Arcs are stored in the direction of defect propagation: an arc `u → v`
records that `v` depends on `u`, which is the direction on which the
notebooks' concrete outputs (for instance `Reach.top(5)` on the five-node
path graph) agree with the specification's metric algorithm of section 4.D.
All arithmetic is exact (naturals and rationals), matching the
specification's statement that metric values are integers and that both
immunization algorithms are exact in integer arithmetic.
-/

namespace Olivia

/-- Modelled from the spec: the immutable directed graph held by the network
model (`olivia.model.OliviaNetwork`, absent from the staged sources).  Nodes
are packages; an arc `(u, v)` means a defect in `u` propagates to `v`, that
is `v` directly depends on `u`.  The well-formedness field records that arcs
join packages of the network, which the spec's build path guarantees. -/
structure Network (α : Type) [LinearOrder α] where
  nodes : Finset α
  arcs : Finset (α × α)
  arcs_sub : ∀ e ∈ arcs, e.1 ∈ nodes ∧ e.2 ∈ nodes

variable {α : Type} [LinearOrder α]

/-- Modelled from the spec: `build_model` ingest normalization — multi-edges
are collapsed (arcs form a set) and self-loops are dropped; names appearing
anywhere in the edge list are registered as packages. -/
def build_model (edges : List (α × α)) : Network α where
  nodes := (edges.map Prod.fst).toFinset ∪ (edges.map Prod.snd).toFinset
  arcs := (edges.filter fun e => decide (e.1 ≠ e.2)).toFinset
  arcs_sub := by
    intro e he
    rw [List.mem_toFinset, List.mem_filter] at he
    constructor
    · exact Finset.mem_union_left _ (List.mem_toFinset.2 (List.mem_map_of_mem Prod.fst he.1))
    · exact Finset.mem_union_right _ (List.mem_toFinset.2 (List.mem_map_of_mem Prod.snd he.1))

/-- Arc relation of a network: `Arc net a b` holds when the graph has the
arc `a → b` (defects in `a` propagate to `b`). -/
def Arc (net : Network α) (a b : α) : Prop := (a, b) ∈ net.arcs

/-- The elements of a finite set of names as an ascending list; this is the
canonical id order of the model. -/
def sortL (s : Finset α) : List α :=
  Quot.liftOn s.val (fun l => l.insertionSort (· ≤ ·)) (by
    intro l₁ l₂ h
    exact List.eq_of_perm_of_sorted
      (((List.perm_insertionSort _ l₁).trans h).trans
        (List.perm_insertionSort _ l₂).symm)
      (List.sorted_insertionSort _ l₁) (List.sorted_insertionSort _ l₂))

/-- Direct successors of a package along stored arcs: its direct dependants. -/
def succs (net : Network α) (a : α) : Finset α :=
  (net.arcs.filter fun e => e.1 = a).image Prod.snd

/-- Direct predecessors of a package along stored arcs: its direct
dependencies. -/
def preds (net : Network α) (a : α) : Finset α :=
  (net.arcs.filter fun e => e.2 = a).image Prod.fst

/-- Modelled from the spec: `PackageInfoView.direct_dependants` — the
packages one arc downstream of `a`. -/
def direct_dependants (net : Network α) (a : α) : Finset α := succs net a

/-- Modelled from the spec: `PackageInfoView.direct_dependencies` — the
packages `a` directly depends on. -/
def direct_dependencies (net : Network α) (a : α) : Finset α := preds net a

/-- One expansion step of a frontier set: the set together with every direct
successor of its members. -/
def stepFrom (net : Network α) (s : Finset α) : Finset α :=
  s ∪ s.biUnion (succs net)

/-- The set of packages reachable from `u` by zero or more arcs, computed by
iterating the expansion step as many times as there are packages (at which
point it has provably stabilized). -/
def reachSet (net : Network α) (u : α) : Finset α :=
  (stepFrom net)^[net.nodes.card] {u}

/-- Modelled from the spec: the Reach metric of section 4.D, the number of
packages affected by a defect in `u` including `u` itself; equal to the sum
of the sizes of the condensation SCCs reachable from `u`'s SCC. -/
def reach (net : Network α) (u : α) : ℕ := (reachSet net u).card

/-- Modelled from the spec (glossary): the transitive dependants of `u` are
the packages reachable from `u` by one or more arcs. -/
def transitive_dependants (net : Network α) (u : α) : Finset α :=
  (succs net u).biUnion (reachSet net)

/-- The same graph with every arc reversed. -/
def reverse (net : Network α) : Network α where
  nodes := net.nodes
  arcs := net.arcs.image Prod.swap
  arcs_sub := by
    intro e he
    rw [Finset.mem_image] at he
    obtain ⟨f, hf, hswap⟩ := he
    have := net.arcs_sub f hf
    subst hswap
    exact ⟨this.2, this.1⟩

/-- Modelled from the spec (glossary): the transitive dependencies of `u`
are the packages from which `u` is reachable by one or more arcs. -/
def transitive_dependencies (net : Network α) (u : α) : Finset α :=
  transitive_dependants (reverse net) u

/-- Modelled from the spec: the Surface metric of section 4.D — the number
of packages whose defect can reach `u`, including `u`; Reach on the reverse
graph. -/
def surface (net : Network α) (u : α) : ℕ := reach (reverse net) u

/-- Modelled from the spec: the Impact metric of section 4.D — the number of
arcs of the original graph whose tail lies in the set of packages reachable
from `u`. -/
def impact (net : Network α) (u : α) : ℕ :=
  (net.arcs.filter fun e => e.1 ∈ reachSet net u).card

/-- Modelled from the spec: `PackageInfoView.scc` — the strongly connected
component of `u`: the packages mutually reachable with `u`. -/
def sccOf (net : Network α) (u : α) : Finset α :=
  reachSet net u ∩ reachSet (reverse net) u

/-- Modelled from the spec: `OliviaNetwork.sccs()` — the SCC member sets,
enumerated in package order with repetitions removed. -/
def sccs (net : Network α) : List (Finset α) :=
  ((sortL net.nodes).map (sccOf net)).dedup

/-- Modelled from the spec: `OliviaNetwork.sorted_clusters()` — the SCC
member sets sorted by decreasing size. -/
def sorted_clusters (net : Network α) : List (Finset α) :=
  (sccs net).insertionSort (fun s t => t.card ≤ s.card)

/-- Modelled from the spec: the coupling interface of `u` over `v`
(`olivia.coupling.coupling_interface`) — the set of direct dependencies of
`v` from which `u`'s defects arrive, that is the direct dependencies of `v`
lying in the reach set of `u`. -/
def coupling_interface (net : Network α) (u v : α) : Finset α :=
  (direct_dependencies net v).filter (fun d => d ∈ reachSet net u)

/-- Modelled from the spec: `olivia.coupling.transitive_coupling` — the
cardinality of the coupling interface. -/
def transitive_coupling (net : Network α) (u v : α) : ℕ :=
  (coupling_interface net u v).card

/-- Modelled from the spec: `PackageInfoView.coupling_interface_from`, the
view-level query on `v`'s view for a source `u`; section 4.F computes each
membership as the test "is `u` among the transitive dependencies of `d`"
(or `d` is `u` itself). -/
def coupling_interface_from (net : Network α) (v u : α) : Finset α :=
  (direct_dependencies net v).filter
    (fun d => u = d ∨ u ∈ transitive_dependencies net d)

/-- Modelled from the spec: `PackageInfoView.coupling_interface_to`, the
view-level query on `u`'s view for a target `v`, computed as the bitset
intersection of `u`'s descendant set with `v`'s direct dependencies. -/
def coupling_interface_to (net : Network α) (u v : α) : Finset α :=
  reachSet net u ∩ direct_dependencies net v

/-- Modelled from the spec: `olivia.coupling.coupling_profile` — the map
sending every transitive dependency of `v` to its coupling interface over
`v`, represented as the list of pairs in package order. -/
def coupling_profile (net : Network α) (v : α) : List (α × Finset α) :=
  (sortL (transitive_dependencies net v)).map
    (fun u => (u, coupling_interface net u v))

/-- Modelled from the spec: the built-in metric kinds of
`olivia.packagemetrics`. -/
inductive MetricKind : Type
  | Reach
  | Impact
  | Surface
  | DependentsCount
  | DependenciesCount
deriving DecidableEq

/-- The list of all built-in metric kinds, in the order they are serialized. -/
def allKinds : List MetricKind :=
  [MetricKind.Reach, MetricKind.Impact, MetricKind.Surface,
   MetricKind.DependentsCount, MetricKind.DependenciesCount]

/-- Modelled from the spec: the per-package value of each built-in metric
kind, as a rational (metric results support element-wise arithmetic over
numbers; the built-in values are non-negative integers). -/
def metricValue (k : MetricKind) (net : Network α) (a : α) : ℚ :=
  match k with
  | MetricKind.Reach => reach net a
  | MetricKind.Impact => impact net a
  | MetricKind.Surface => surface net a
  | MetricKind.DependentsCount => (direct_dependants net a).card
  | MetricKind.DependenciesCount => (direct_dependencies net a).card

/-- Modelled from the spec: `olivia.packagemetrics.MetricStats` — a mapping
from package names to numeric values over a universe of names. -/
structure MetricStats (α : Type) [LinearOrder α] where
  dom : Finset α
  values : α → ℚ

/-- Public lookup on a MetricStats: the value of a name of its universe. -/
def MetricStats.get (m : MetricStats α) (a : α) : Option ℚ :=
  if a ∈ m.dom then some (m.values a) else none

/-- The universe a ranking query ranges over: the whole domain, or its
intersection with an optional subset of names. -/
def MetricStats.base (m : MetricStats α) (subset : Option (Finset α)) : Finset α :=
  match subset with
  | some s => m.dom ∩ s
  | none => m.dom

/-- Ranking order for `top`: larger value first, ties broken by ascending
name. -/
def rankRel (p q : α × ℚ) : Prop := q.2 < p.2 ∨ (p.2 = q.2 ∧ p.1 ≤ q.1)

instance : DecidableRel (α := α × ℚ) rankRel := fun p q => by
  unfold rankRel; infer_instance

/-- Ranking order for `bottom`: smaller value first, ties broken by
ascending name. -/
def bottomRel (p q : α × ℚ) : Prop := p.2 < q.2 ∨ (p.2 = q.2 ∧ p.1 ≤ q.1)

instance : DecidableRel (α := α × ℚ) bottomRel := fun p q => by
  unfold bottomRel; infer_instance

/-- Modelled from the spec: `MetricStats.top(k, subset)` — the `k` packages
with the largest values, optionally restricted to a subset of names,
ties broken by ascending package name. -/
def MetricStats.top (m : MetricStats α) (k : ℕ) (subset : Option (Finset α)) :
    List (α × ℚ) :=
  (((sortL (m.base subset)).map (fun a => (a, m.values a))).insertionSort
    rankRel).take k

/-- Modelled from the spec: `MetricStats.bottom(k, subset)` — the `k`
packages with the smallest values, ties broken by ascending name. -/
def MetricStats.bottom (m : MetricStats α) (k : ℕ) (subset : Option (Finset α)) :
    List (α × ℚ) :=
  (((sortL (m.base subset)).map (fun a => (a, m.values a))).insertionSort
    bottomRel).take k

/-- Modelled from the spec: the metric engine's whole-network computation
for a kind — a MetricStats over all packages of the network. -/
def computeMetric (net : Network α) (k : MetricKind) : MetricStats α :=
  ⟨net.nodes, fun a => metricValue k net a⟩

/-- Modelled from the spec: the network model `OliviaNetwork` — the
immutable graph together with the metric cache, the model's only mutable
state.  The invariant records that every cached result ranges over the
model's packages, which holds because entries are inserted by the engine
only. -/
structure OliviaModel (α : Type) [LinearOrder α] where
  net : Network α
  cache : MetricKind → Option (MetricStats α)
  cache_wf : ∀ k s, cache k = some s → s.dom = net.nodes

/-- Modelled from the spec: `OliviaNetwork.get_metric(kind)` — returns the
cached result when present, otherwise computes, inserts and returns.  The
returned triple carries the result, the model after the call, and whether
an underlying computation was performed. -/
def get_metric (m : OliviaModel α) (k : MetricKind) :
    MetricStats α × OliviaModel α × Bool :=
  match m.cache k with
  | some s => (s, m, false)
  | none =>
    let s := computeMetric m.net k
    (s,
      { net := m.net
        cache := fun k' => if k' = k then some s else m.cache k'
        cache_wf := by
          intro k' s' h'
          by_cases hk : k' = k
          · simp only [hk, if_pos rfl] at h'
            cases h'
            rfl
          · simp only [if_neg hk] at h'
            exact m.cache_wf k' s' h' },
      true)

/-- Modelled from the spec: `size()` — the number of packages. -/
def size (m : OliviaModel α) : ℕ := m.net.nodes.card

/-- Modelled from the spec: `contains(name)`. -/
def contains (m : OliviaModel α) (a : α) : Prop := a ∈ m.net.nodes

/-- Modelled from the spec: `iter()` — the package names in id order (dense
ids are assigned in name order here). -/
def iterNames (m : OliviaModel α) : List α := sortL m.net.nodes

/-- Modelled from the spec: the immunized network — all out-edges of every
package of the target set are removed, while the packages themselves remain
present. -/
def removeOutEdges (net : Network α) (t : Finset α) : Network α where
  nodes := net.nodes
  arcs := net.arcs.filter (fun e => e.1 ∉ t)
  arcs_sub := by
    intro e he
    exact net.arcs_sub e (Finset.mem_of_mem_filter e he)

/-- Modelled from the spec:
`olivia.networkmetrics.failure_vulnerability(net, metric)` — the arithmetic
mean of the metric over all packages. -/
def failure_vulnerability (net : Network α) (k : MetricKind) : ℚ :=
  (∑ a ∈ net.nodes, metricValue k net a) / net.nodes.card

/-- Modelled from the spec: the `network` immunization-delta algorithm —
recompute the mean metric on the immunized network and return the decrease. -/
def networkDelta (net : Network α) (t : Finset α) (k : MetricKind) : ℚ :=
  failure_vulnerability net k - failure_vulnerability (removeOutEdges net t) k

/-- The union of the transitive dependants of the target packages. -/
def dependantsUnion (net : Network α) (t : Finset α) : Finset α :=
  t.biUnion (transitive_dependants net)

/-- The union of the transitive dependencies of the target packages. -/
def dependenciesUnion (net : Network α) (t : Finset α) : Finset α :=
  t.biUnion (transitive_dependencies net)

/-- Modelled from the spec: the restricted package set of the `analytic`
algorithm — the target set with its transitive dependants and transitive
dependencies. -/
def affectedSet (net : Network α) (t : Finset α) : Finset α :=
  t ∪ dependantsUnion net t ∪ dependenciesUnion net t

/-- Modelled from the spec: the `analytic` immunization-delta algorithm for
Reach — Reach is unchanged outside the restricted set, so the differences
are summed over the restricted set only and divided by the package count. -/
def analyticDelta (net : Network α) (t : Finset α) : ℚ :=
  (∑ u ∈ affectedSet net t ∩ net.nodes,
    ((reach net u : ℚ) - (reach (removeOutEdges net t) u : ℚ))) /
  net.nodes.card

/-- Modelled from the spec: the error raised when the analytic immunization
delta is requested for a metric other than Reach. -/
inductive ImmunizationError : Type
  | UnsupportedMetric
deriving DecidableEq

/-- Modelled from the spec: the algorithm selector of `immunization_delta`. -/
inductive Algorithm : Type
  | network
  | analytic
deriving DecidableEq

/-- Modelled from the spec:
`olivia.immunization.immunization_delta(net, target_set, cost_metric,
algorithm)` — the `network` algorithm handles every cost metric; the
`analytic` algorithm supports Reach only and fails with `UnsupportedMetric`
otherwise. -/
def immunization_delta (net : Network α) (t : Finset α) (cost : MetricKind)
    (alg : Algorithm) : Except ImmunizationError ℚ :=
  match alg with
  | Algorithm.network => Except.ok (networkDelta net t cost)
  | Algorithm.analytic =>
    if cost = MetricKind.Reach then Except.ok (analyticDelta net t)
    else Except.error ImmunizationError.UnsupportedMetric

/-- CSR offsets of a list of adjacency rows: the running sums of the row
lengths, starting at zero. -/
def csrOffsets (rows : List (List ℕ)) : List ℕ :=
  List.scanl (· + ·) 0 (rows.map List.length)

/-- Row lengths recovered from CSR offsets: consecutive differences. -/
def csrLengths (off : List ℕ) : List ℕ :=
  List.zipWith (fun a b => a - b) (off.drop 1) off

/-- Split a flat index list into rows of the given lengths. -/
def splitByLengths : List ℕ → List ℕ → List (List ℕ)
  | [], _ => []
  | n :: ns, flat => flat.take n :: splitByLengths ns (flat.drop n)

/-- Adjacency rows recovered from a CSR offset array and flat index array. -/
def decodeCSR (off : List ℕ) (flat : List ℕ) : List (List ℕ) :=
  splitByLengths (csrLengths off) flat

/-- The dense id of a name in the id-ordered name table. -/
def idxOf (table : List α) (a : α) : ℕ := table.indexOf a

/-- Modelled from the spec: the serialized model container of section 6 —
header (magic, version, package count, SCC count), the name table in id
order, forward and reverse CSR arrays, and the cached metric results tagged
by kind with their values in id order.  The condensation sections are
derived data and are rebuilt by `load` from the graph. -/
structure SavedModel (α : Type) [LinearOrder α] where
  magic : String
  version : ℕ
  packageCount : ℕ
  sccCount : ℕ
  nameTable : List α
  fwdOffsets : List ℕ
  fwdIndices : List ℕ
  revOffsets : List ℕ
  revIndices : List ℕ
  metricSection : List (MetricKind × List ℚ)

/-- Modelled from the spec: `OliviaNetwork.save` — the gzip container
capturing the graph plus all currently cached metric results. -/
def save (m : OliviaModel α) : SavedModel α :=
  let table := sortL m.net.nodes
  let fwdRows := table.map
    (fun a => (sortL (direct_dependants m.net a)).map (idxOf table))
  let revRows := table.map
    (fun a => (sortL (direct_dependencies m.net a)).map (idxOf table))
  { magic := "OLV1"
    version := 1
    packageCount := m.net.nodes.card
    sccCount := (sccs m.net).length
    nameTable := table
    fwdOffsets := csrOffsets fwdRows
    fwdIndices := fwdRows.flatten
    revOffsets := csrOffsets revRows
    revIndices := revRows.flatten
    metricSection := allKinds.filterMap
      (fun k => (m.cache k).map (fun s => (k, table.map s.values))) }

/-- The network rebuilt from a name table and decoded forward adjacency
rows; indices that do not point into the table contribute nothing, so the
result is well formed for every input. -/
def decodeNetwork (table : List α) (rows : List (List ℕ)) : Network α where
  nodes := table.toFinset
  arcs := table.toFinset.biUnion
    (fun a => (((rows.getD (idxOf table a) []).filterMap table.get?).toFinset).image
      (fun b => (a, b)))
  arcs_sub := by
    intro e he
    rw [Finset.mem_biUnion] at he
    obtain ⟨a, ha, he⟩ := he
    rw [Finset.mem_image] at he
    obtain ⟨b, hb, hba⟩ := he
    rw [List.mem_toFinset, List.mem_filterMap] at hb
    obtain ⟨j, _, hj⟩ := hb
    subst hba
    exact ⟨ha, List.mem_toFinset.2 (List.get?_mem hj)⟩

/-- A cached metric result rebuilt from a name table and its serialized
values in id order. -/
def decodeStats (table : List α) (vals : List ℚ) : MetricStats α :=
  ⟨table.toFinset, fun a => vals.getD (idxOf table a) 0⟩

/-- The model rebuilt from a serialized container: graph from the name
table and forward CSR arrays, cache from the metric section. -/
def loadModel (sm : SavedModel α) : OliviaModel α where
  net := decodeNetwork sm.nameTable (decodeCSR sm.fwdOffsets sm.fwdIndices)
  cache := fun k =>
    (sm.metricSection.find? (fun e => decide (e.1 = k))).map
      (fun e => decodeStats sm.nameTable e.2)
  cache_wf := by
    intro k s h
    rw [Option.map_eq_some'] at h
    obtain ⟨e, _, hs⟩ := h
    subst hs
    rfl

/-- Modelled from the spec: `OliviaNetwork` construction from a saved file
(`load`) — the header is checked first and a container with a wrong magic
or version is rejected as corrupted. -/
def load (sm : SavedModel α) : Option (OliviaModel α) :=
  if sm.magic = "OLV1" ∧ sm.version = 1 then some (loadModel sm) else none

/-- The two-cycle network: packages 0 and 1 depending on each other. -/
def cycleTwo : Network ℕ := build_model [(0, 1), (1, 0)]

/-- The three-cycle with one extra dependant of the cycle, the concrete
scenario of the spec's section 8: arcs a→b, b→c, c→a, d→a with a, b, c, d
numbered 0, 1, 2, 3. -/
def cycleNet : Network ℕ := build_model [(0, 1), (1, 2), (2, 0), (3, 0)]

/-- The five-node path graph 0→1→2→3→4 of the spec's first concrete
scenario. -/
def pathFive : Network ℕ := build_model [(0, 1), (1, 2), (2, 3), (3, 4)]

/-- The Reach MetricStats of the five-node path graph. -/
def pathReachStats : MetricStats ℕ := computeMetric pathFive MetricKind.Reach

/-! ### Basic facts about `sortL` and the graph accessors -/

theorem sortL_coe (s : Finset α) : (↑(sortL s) : Multiset α) = s.val := by
  rcases s with ⟨v, hv⟩
  induction v using Quotient.inductionOn with
  | h l => exact Quot.sound (List.perm_insertionSort _ l)

theorem mem_sortL {s : Finset α} {a : α} : a ∈ sortL s ↔ a ∈ s := by
  rw [← Multiset.mem_coe, sortL_coe]
  rfl

theorem sortL_sorted (s : Finset α) : List.Sorted (· ≤ ·) (sortL s) := by
  rcases s with ⟨v, hv⟩
  induction v using Quotient.inductionOn with
  | h l => exact List.sorted_insertionSort _ l

theorem sortL_nodup (s : Finset α) : (sortL s).Nodup := by
  have := s.nodup
  rw [← sortL_coe s] at this
  exact this

theorem sortL_toFinset (s : Finset α) : (sortL s).toFinset = s := by
  apply Finset.ext
  intro a
  rw [List.mem_toFinset, mem_sortL]

theorem mem_succs {net : Network α} {a b : α} :
    b ∈ succs net a ↔ (a, b) ∈ net.arcs := by
  unfold succs
  rw [Finset.mem_image]
  constructor
  · rintro ⟨e, he, rfl⟩
    rw [Finset.mem_filter] at he
    obtain ⟨he, h1⟩ := he
    have : e = (a, e.2) := by
      rw [← h1]
    rwa [← this]
  · intro h
    exact ⟨(a, b), Finset.mem_filter.2 ⟨h, rfl⟩, rfl⟩

theorem mem_preds {net : Network α} {a b : α} :
    b ∈ preds net a ↔ (b, a) ∈ net.arcs := by
  unfold preds
  rw [Finset.mem_image]
  constructor
  · rintro ⟨e, he, rfl⟩
    rw [Finset.mem_filter] at he
    obtain ⟨he, h2⟩ := he
    have : e = (e.1, a) := by
      rw [← h2]
    rwa [← this]
  · intro h
    exact ⟨(b, a), Finset.mem_filter.2 ⟨h, rfl⟩, rfl⟩

theorem arc_reverse {net : Network α} {a b : α} :
    Arc (reverse net) a b ↔ Arc net b a := by
  unfold Arc reverse
  simp only [Finset.mem_image]
  constructor
  · rintro ⟨e, he, hswap⟩
    have : e = (b, a) := by
      rcases e with ⟨x, y⟩
      cases hswap
      rfl
    rwa [this] at he
  · intro h
    exact ⟨(b, a), h, rfl⟩

theorem succs_subset_nodes (net : Network α) (a : α) : succs net a ⊆ net.nodes := by
  intro b hb
  exact (net.arcs_sub _ (mem_succs.1 hb)).2

theorem succs_eq_empty_of_not_mem {net : Network α} {u : α} (hu : u ∉ net.nodes) :
    succs net u = ∅ := by
  apply Finset.eq_empty_of_forall_not_mem
  intro b hb
  exact hu (net.arcs_sub _ (mem_succs.1 hb)).1

/-! ### The reach set computes reflexive-transitive reachability -/

theorem subset_stepFrom (net : Network α) (s : Finset α) : s ⊆ stepFrom net s :=
  Finset.subset_union_left

theorem mem_stepFrom {net : Network α} {s : Finset α} {a : α} :
    a ∈ stepFrom net s ↔ a ∈ s ∨ ∃ b ∈ s, (b, a) ∈ net.arcs := by
  unfold stepFrom
  rw [Finset.mem_union, Finset.mem_biUnion]
  simp only [mem_succs]

theorem stepFrom_subset_nodes {net : Network α} {s : Finset α}
    (h : s ⊆ net.nodes) : stepFrom net s ⊆ net.nodes := by
  intro a ha
  rcases mem_stepFrom.1 ha with ha | ⟨b, _, hb⟩
  · exact h ha
  · exact (net.arcs_sub _ hb).2

theorem iterate_subset_nodes {net : Network α} {u : α} (hu : u ∈ net.nodes) :
    ∀ n, (stepFrom net)^[n] {u} ⊆ net.nodes := by
  intro n
  induction n with
  | zero =>
    intro a ha
    rw [Function.iterate_zero_apply, Finset.mem_singleton] at ha
    rwa [ha]
  | succ n ih =>
    rw [Function.iterate_succ_apply']
    exact stepFrom_subset_nodes ih

theorem subset_iterate (net : Network α) (s : Finset α) :
    ∀ n, s ⊆ (stepFrom net)^[n] s := by
  intro n
  induction n with
  | zero => rw [Function.iterate_zero_apply]
  | succ n ih =>
    rw [Function.iterate_succ_apply']
    exact ih.trans (subset_stepFrom net _)

theorem iterate_stable {net : Network α} {s : Finset α} {k : ℕ}
    (h : (stepFrom net)^[k + 1] s = (stepFrom net)^[k] s) :
    ∀ m, k ≤ m → (stepFrom net)^[m] s = (stepFrom net)^[k] s := by
  intro m hm
  induction m, hm using Nat.le_induction with
  | base => rfl
  | succ m hm ih =>
    rw [Function.iterate_succ_apply', ih]
    exact (Function.iterate_succ_apply' (stepFrom net) k s).symm.trans h

theorem iterate_card_of_ne {net : Network α} {s : Finset α} :
    ∀ n, (∀ k < n, (stepFrom net)^[k + 1] s ≠ (stepFrom net)^[k] s) →
      s.card + n ≤ ((stepFrom net)^[n] s).card := by
  intro n
  induction n with
  | zero =>
    intro _
    rw [Function.iterate_zero_apply]
    omega
  | succ n ih =>
    intro h
    have hn := ih (fun k hk => h k (Nat.lt_succ_of_lt hk))
    have hsub : (stepFrom net)^[n] s ⊆ (stepFrom net)^[n + 1] s := by
      rw [Function.iterate_succ_apply']
      exact subset_stepFrom net _
    have hne := h n (Nat.lt_succ_self n)
    have hlt : ((stepFrom net)^[n] s).card < ((stepFrom net)^[n + 1] s).card :=
      Finset.card_lt_card (Finset.ssubset_iff_subset_ne.2 ⟨hsub, Ne.symm hne⟩)
    omega

theorem stepFrom_reachSet (net : Network α) (u : α) :
    stepFrom net (reachSet net u) = reachSet net u := by
  by_cases hu : u ∈ net.nodes
  · unfold reachSet
    have key : (stepFrom net)^[net.nodes.card + 1] ({u} : Finset α) =
        (stepFrom net)^[net.nodes.card] {u} := by
      by_contra hne
      have hall : ∀ k < net.nodes.card + 1,
          (stepFrom net)^[k + 1] ({u} : Finset α) ≠ (stepFrom net)^[k] {u} := by
        intro k hk heq
        apply hne
        have h1 := iterate_stable heq net.nodes.card (by omega)
        have h2 := iterate_stable heq (net.nodes.card + 1) (by omega)
        rw [h1, h2]
      have hgrow := @iterate_card_of_ne _ _ net {u} (net.nodes.card + 1) hall
      have hsub := iterate_subset_nodes hu (net.nodes.card + 1)
      have hcard := Finset.card_le_card hsub
      rw [Finset.card_singleton] at hgrow
      omega
    exact (Function.iterate_succ_apply' (stepFrom net) net.nodes.card {u}).symm.trans key
  · have h0 : stepFrom net ({u} : Finset α) = {u} := by
      unfold stepFrom
      rw [Finset.singleton_biUnion, succs_eq_empty_of_not_mem hu, Finset.union_empty]
    have hfix : reachSet net u = {u} := by
      unfold reachSet
      have h1 : (stepFrom net)^[0 + 1] ({u} : Finset α) = (stepFrom net)^[0] {u} := by
        rw [Function.iterate_one, Function.iterate_zero_apply]
        exact h0
      rw [iterate_stable h1 net.nodes.card (Nat.zero_le _), Function.iterate_zero_apply]
    rw [hfix, h0]

theorem mem_iterate_reaches {net : Network α} {u : α} :
    ∀ n (v : α), v ∈ (stepFrom net)^[n] ({u} : Finset α) →
      Relation.ReflTransGen (Arc net) u v := by
  intro n
  induction n with
  | zero =>
    intro v hv
    rw [Function.iterate_zero_apply, Finset.mem_singleton] at hv
    rw [hv]
  | succ n ih =>
    intro v hv
    rw [Function.iterate_succ_apply'] at hv
    rcases mem_stepFrom.1 hv with hv | ⟨b, hb, harc⟩
    · exact ih v hv
    · exact (ih b hb).tail harc

theorem mem_reachSet {net : Network α} {u v : α} :
    v ∈ reachSet net u ↔ Relation.ReflTransGen (Arc net) u v := by
  constructor
  · intro hv
    exact mem_iterate_reaches net.nodes.card v hv
  · intro hv
    induction hv with
    | refl => exact subset_iterate net {u} _ (Finset.mem_singleton_self u)
    | tail _ harc ih =>
      rw [← stepFrom_reachSet net u]
      exact mem_stepFrom.2 (Or.inr ⟨_, ih, harc⟩)

theorem mem_transitive_dependants {net : Network α} {u v : α} :
    v ∈ transitive_dependants net u ↔ Relation.TransGen (Arc net) u v := by
  unfold transitive_dependants
  rw [Finset.mem_biUnion]
  constructor
  · rintro ⟨w, hw, hv⟩
    exact Relation.TransGen.head' (mem_succs.1 hw) (mem_reachSet.1 hv)
  · intro h
    induction h with
    | single harc =>
      exact ⟨_, mem_succs.2 harc, mem_reachSet.2 Relation.ReflTransGen.refl⟩
    | tail _ harc ih =>
      obtain ⟨w, hw, hv⟩ := ih
      exact ⟨w, hw, mem_reachSet.2 ((mem_reachSet.1 hv).tail harc)⟩

theorem reachSet_eq_insert (net : Network α) (u : α) :
    reachSet net u = insert u (transitive_dependants net u) := by
  apply Finset.ext
  intro v
  rw [Finset.mem_insert, mem_reachSet, mem_transitive_dependants]
  constructor
  · intro h
    rcases h.cases_head with h | ⟨c, hc, hcv⟩
    · exact Or.inl h.symm
    · exact Or.inr (Relation.TransGen.head' hc hcv)
  · rintro (rfl | h)
    · exact Relation.ReflTransGen.refl
    · exact h.to_reflTransGen

theorem mem_reachSet_reverse {net : Network α} {u v : α} :
    v ∈ reachSet (reverse net) u ↔ Relation.ReflTransGen (Arc net) v u := by
  rw [mem_reachSet, ← Relation.reflTransGen_swap]
  constructor
  · intro h
    exact h.mono (fun a b hab => arc_reverse.1 hab)
  · intro h
    exact h.mono (fun a b hab => arc_reverse.2 hab)

theorem mem_transitive_dependencies {net : Network α} {u v : α} :
    v ∈ transitive_dependencies net u ↔ Relation.TransGen (Arc net) v u := by
  unfold transitive_dependencies
  rw [mem_transitive_dependants, ← Relation.transGen_swap]
  constructor
  · intro h
    exact h.mono (fun a b hab => arc_reverse.1 hab)
  · intro h
    exact h.mono (fun a b hab => arc_reverse.2 hab)

theorem reachSet_mono {net net' : Network α} (h : net'.arcs ⊆ net.arcs) (u : α) :
    reachSet net' u ⊆ reachSet net u := by
  intro v hv
  rw [mem_reachSet] at hv ⊢
  exact hv.mono (fun a b hab => h hab)

/-! ### Strongly connected components -/

theorem mem_sccOf {net : Network α} {u v : α} :
    v ∈ sccOf net u ↔
      Relation.ReflTransGen (Arc net) u v ∧ Relation.ReflTransGen (Arc net) v u := by
  unfold sccOf
  rw [Finset.mem_inter, mem_reachSet, mem_reachSet_reverse]

theorem reachSet_eq_of_mem_sccOf {net : Network α} {u v : α}
    (h : v ∈ sccOf net u) : reachSet net u = reachSet net v := by
  obtain ⟨huv, hvu⟩ := mem_sccOf.1 h
  apply Finset.ext
  intro w
  rw [mem_reachSet, mem_reachSet]
  exact ⟨fun hw => hvu.trans hw, fun hw => huv.trans hw⟩

theorem reachSet_reverse_eq_of_mem_sccOf {net : Network α} {u v : α}
    (h : v ∈ sccOf net u) : reachSet (reverse net) u = reachSet (reverse net) v := by
  obtain ⟨huv, hvu⟩ := mem_sccOf.1 h
  apply Finset.ext
  intro w
  rw [mem_reachSet_reverse, mem_reachSet_reverse]
  exact ⟨fun hw => hw.trans huv, fun hw => hw.trans hvu⟩

theorem reach_eq_of_mem_sccOf {net : Network α} {u v : α} (h : v ∈ sccOf net u) :
    reach net u = reach net v := by
  unfold reach
  rw [reachSet_eq_of_mem_sccOf h]

theorem impact_eq_of_mem_sccOf {net : Network α} {u v : α} (h : v ∈ sccOf net u) :
    impact net u = impact net v := by
  unfold impact
  rw [reachSet_eq_of_mem_sccOf h]

theorem surface_eq_of_mem_sccOf {net : Network α} {u v : α} (h : v ∈ sccOf net u) :
    surface net u = surface net v := by
  unfold surface reach
  rw [reachSet_reverse_eq_of_mem_sccOf h]

/-! ### Reach, Surface, and the transitive dependant and dependency sets -/

theorem reach_eq_card_insert (net : Network α) (u : α) :
    reach net u = (insert u (transitive_dependants net u)).card := by
  unfold reach
  rw [reachSet_eq_insert]

theorem surface_eq_card_insert (net : Network α) (u : α) :
    surface net u = (insert u (transitive_dependencies net u)).card := by
  unfold surface reach transitive_dependencies
  rw [reachSet_eq_insert]

theorem self_mem_dependencies_iff {net : Network α} {u : α} :
    u ∈ transitive_dependencies net u ↔ u ∈ transitive_dependants net u := by
  rw [mem_transitive_dependencies, mem_transitive_dependants]

theorem reach_of_not_self_dependant {net : Network α} {u : α}
    (h : u ∉ transitive_dependants net u) :
    reach net u = 1 + (transitive_dependants net u).card := by
  rw [reach_eq_card_insert, Finset.card_insert_of_not_mem h, Nat.add_comm]

theorem surface_of_not_self_dependant {net : Network α} {u : α}
    (h : u ∉ transitive_dependants net u) :
    surface net u = 1 + (transitive_dependencies net u).card := by
  have h' : u ∉ transitive_dependencies net u := fun hc =>
    h (self_mem_dependencies_iff.1 hc)
  rw [surface_eq_card_insert, Finset.card_insert_of_not_mem h', Nat.add_comm]

/-! ### The coupling identity: interfaces partition the impact arcs -/

theorem impactArcs_eq_biUnion (net : Network α) (u : α) :
    net.arcs.filter (fun e => e.1 ∈ reachSet net u) =
      (transitive_dependants net u).biUnion
        (fun v => (coupling_interface net u v).image (fun d => (d, v))) := by
  apply Finset.ext
  rintro ⟨a, b⟩
  rw [Finset.mem_filter, Finset.mem_biUnion]
  constructor
  · rintro ⟨harc, hreach⟩
    refine ⟨b, ?_, ?_⟩
    · rw [mem_transitive_dependants]
      exact Relation.TransGen.tail' (mem_reachSet.1 hreach) harc
    · rw [Finset.mem_image]
      refine ⟨a, ?_, rfl⟩
      unfold coupling_interface
      rw [Finset.mem_filter]
      exact ⟨mem_preds.2 harc, hreach⟩
  · rintro ⟨v, _, hmem⟩
    rw [Finset.mem_image] at hmem
    obtain ⟨d, hd, hdv⟩ := hmem
    unfold coupling_interface at hd
    rw [Finset.mem_filter] at hd
    obtain ⟨hdep, hreach⟩ := hd
    cases hdv
    exact ⟨mem_preds.1 hdep, hreach⟩

theorem sum_coupling_eq_impact (net : Network α) (u : α) :
    ∑ v ∈ transitive_dependants net u, transitive_coupling net u v =
      impact net u := by
  unfold impact
  rw [impactArcs_eq_biUnion net u]
  have hdisj : ∀ x ∈ transitive_dependants net u, ∀ y ∈ transitive_dependants net u,
      x ≠ y → Disjoint ((coupling_interface net u x).image (fun d => (d, x)))
        ((coupling_interface net u y).image (fun d => (d, y))) := by
    intro x _ y _ hxy
    rw [Finset.disjoint_left]
    rintro ⟨a, b⟩ hx hy
    rw [Finset.mem_image] at hx hy
    obtain ⟨d, _, hd⟩ := hx
    obtain ⟨d', _, hd'⟩ := hy
    apply hxy
    have hx2 : x = b := congrArg Prod.snd hd
    have hy2 : y = b := congrArg Prod.snd hd'
    rw [hx2, hy2]
  rw [Finset.card_biUnion hdisj]
  apply Finset.sum_congr rfl
  intro v _
  unfold transitive_coupling
  exact (Finset.card_image_of_injective _ (fun d d' h => congrArg Prod.fst h)).symm

/-! ### Immunization: the immunized network and the two delta algorithms -/

theorem metricValue_reach (net : Network α) (a : α) :
    metricValue MetricKind.Reach net a = (reach net a : ℚ) := rfl

theorem removeOut_arcs_subset (net : Network α) (t : Finset α) :
    (removeOutEdges net t).arcs ⊆ net.arcs := Finset.filter_subset _ _

theorem removeOut_arcs_antitone {net : Network α} {t₁ t₂ : Finset α}
    (h : t₁ ⊆ t₂) : (removeOutEdges net t₂).arcs ⊆ (removeOutEdges net t₁).arcs := by
  intro e he
  rw [removeOutEdges, Finset.mem_filter] at he ⊢
  exact ⟨he.1, fun hmem => he.2 (h hmem)⟩

theorem reach_removeOut_le (net : Network α) (t : Finset α) (u : α) :
    reach (removeOutEdges net t) u ≤ reach net u :=
  Finset.card_le_card (reachSet_mono (removeOut_arcs_subset net t) u)

theorem reach_removeOut_antitone {net : Network α} {t₁ t₂ : Finset α}
    (h : t₁ ⊆ t₂) (u : α) :
    reach (removeOutEdges net t₂) u ≤ reach (removeOutEdges net t₁) u :=
  Finset.card_le_card (reachSet_mono (removeOut_arcs_antitone h) u)

theorem reachSet_preserved_outside {net : Network α} {t : Finset α} {u : α}
    (hu : u ∉ affectedSet net t) :
    reachSet (removeOutEdges net t) u = reachSet net u := by
  apply Finset.Subset.antisymm (reachSet_mono (removeOut_arcs_subset net t) u)
  intro v hv
  rw [mem_reachSet] at hv ⊢
  induction hv with
  | refl => exact Relation.ReflTransGen.refl
  | tail hb harc ih =>
    rename_i b v
    have hbt : b ∉ t := by
      intro hbt
      apply hu
      unfold affectedSet
      rcases Relation.ReflTransGen.cases_head hb with rfl | ⟨c, hc, hcb⟩
      · exact Finset.mem_union_left _ (Finset.mem_union_left _ hbt)
      · apply Finset.mem_union_right
        rw [dependenciesUnion, Finset.mem_biUnion]
        refine ⟨b, hbt, ?_⟩
        rw [mem_transitive_dependencies]
        exact Relation.TransGen.head' hc hcb
    apply ih.tail
    show (b, v) ∈ (removeOutEdges net t).arcs
    rw [removeOutEdges, Finset.mem_filter]
    exact ⟨harc, hbt⟩

theorem reach_preserved_outside {net : Network α} {t : Finset α} {u : α}
    (hu : u ∉ affectedSet net t) :
    reach (removeOutEdges net t) u = reach net u := by
  unfold reach
  rw [reachSet_preserved_outside hu]

theorem networkDelta_eq_analyticDelta (net : Network α) (t : Finset α) :
    networkDelta net t MetricKind.Reach = analyticDelta net t := by
  unfold networkDelta analyticDelta failure_vulnerability
  have hnodes : (removeOutEdges net t).nodes = net.nodes := rfl
  rw [hnodes, div_sub_div_same]
  congr 1
  have hsum : ∑ a ∈ net.nodes, metricValue MetricKind.Reach net a -
      ∑ a ∈ net.nodes, metricValue MetricKind.Reach (removeOutEdges net t) a =
      ∑ a ∈ net.nodes,
        ((reach net a : ℚ) - (reach (removeOutEdges net t) a : ℚ)) := by
    rw [← Finset.sum_sub_distrib]
    apply Finset.sum_congr rfl
    intro a _
    rw [metricValue_reach, metricValue_reach]
  rw [hsum]
  apply (Finset.sum_subset Finset.inter_subset_right ?_).symm
  intro x hx hnx
  have hxa : x ∉ affectedSet net t := by
    intro hmem
    exact hnx (Finset.mem_inter.2 ⟨hmem, hx⟩)
  rw [reach_preserved_outside hxa, sub_self]

theorem networkDelta_reach_nonneg (net : Network α) (t : Finset α) :
    0 ≤ networkDelta net t MetricKind.Reach := by
  unfold networkDelta failure_vulnerability
  have hnodes : (removeOutEdges net t).nodes = net.nodes := rfl
  rw [hnodes, div_sub_div_same]
  apply div_nonneg _ (Nat.cast_nonneg _)
  rw [sub_nonneg]
  apply Finset.sum_le_sum
  intro a _
  show metricValue MetricKind.Reach (removeOutEdges net t) a ≤
    metricValue MetricKind.Reach net a
  rw [metricValue_reach, metricValue_reach]
  exact_mod_cast reach_removeOut_le net t a

theorem networkDelta_reach_mono {net : Network α} {t₁ t₂ : Finset α}
    (h : t₁ ⊆ t₂) :
    networkDelta net t₁ MetricKind.Reach ≤ networkDelta net t₂ MetricKind.Reach := by
  unfold networkDelta failure_vulnerability
  have h1 : (removeOutEdges net t₁).nodes = net.nodes := rfl
  have h2 : (removeOutEdges net t₂).nodes = net.nodes := rfl
  rw [h1, h2, div_sub_div_same, div_sub_div_same]
  rcases Nat.eq_zero_or_pos net.nodes.card with hz | hpos
  · rw [hz]
    norm_num
  · rw [div_le_div_iff_of_pos_right (by exact_mod_cast hpos)]
    apply sub_le_sub_left
    apply Finset.sum_le_sum
    intro a _
    show metricValue MetricKind.Reach (removeOutEdges net t₂) a ≤
      metricValue MetricKind.Reach (removeOutEdges net t₁) a
    rw [metricValue_reach, metricValue_reach]
    exact_mod_cast reach_removeOut_antitone h a

/-! ### The three coupling-interface queries agree -/

theorem reflTransGen_iff_eq_or_transGen {net : Network α} {u v : α} :
    Relation.ReflTransGen (Arc net) u v ↔ u = v ∨ Relation.TransGen (Arc net) u v := by
  constructor
  · intro h
    rcases h.cases_head with h | ⟨c, hc, hcv⟩
    · exact Or.inl h
    · exact Or.inr (Relation.TransGen.head' hc hcv)
  · rintro (rfl | h)
    · exact Relation.ReflTransGen.refl
    · exact h.to_reflTransGen

theorem coupling_interface_from_eq (net : Network α) (u v : α) :
    coupling_interface_from net v u = coupling_interface net u v := by
  unfold coupling_interface_from coupling_interface
  apply Finset.filter_congr
  intro d _
  rw [mem_transitive_dependencies, mem_reachSet, reflTransGen_iff_eq_or_transGen]

theorem coupling_interface_to_eq (net : Network α) (u v : α) :
    coupling_interface_to net u v = coupling_interface net u v := by
  unfold coupling_interface_to coupling_interface
  apply Finset.ext
  intro d
  rw [Finset.mem_inter, Finset.mem_filter, and_comm]

/-! ### The metric cache computes once and is append-only -/

theorem get_metric_of_cached {m : OliviaModel α} {k : MetricKind}
    {s : MetricStats α} (h : m.cache k = some s) :
    get_metric m k = (s, m, false) := by
  unfold get_metric
  rw [h]

theorem get_metric_cache_some {m : OliviaModel α} {k : MetricKind} :
    ((get_metric m k).2.1).cache k = some (get_metric m k).1 := by
  unfold get_metric
  rcases h : m.cache k with _ | s
  · simp
  · simp [h]

theorem get_metric_preserves {m : OliviaModel α} {k k' : MetricKind}
    {s : MetricStats α} (h : m.cache k' = some s) :
    ((get_metric m k).2.1).cache k' = some s := by
  unfold get_metric
  rcases hk : m.cache k with _ | s'
  · by_cases he : k' = k
    · rw [he] at h
      rw [h] at hk
      cases hk
    · simp [he, h]
  · exact h

theorem get_metric_idempotent (m : OliviaModel α) (k : MetricKind) :
    (get_metric ((get_metric m k).2.1) k).1 = (get_metric m k).1 ∧
      (get_metric ((get_metric m k).2.1) k).2.2 = false ∧
      (get_metric ((get_metric m k).2.1) k).2.1 = (get_metric m k).2.1 := by
  have h := get_metric_of_cached (get_metric_cache_some (m := m) (k := k))
  rw [h]
  exact ⟨rfl, rfl, rfl⟩

/-! ### Ranking: `top` and `bottom` of a MetricStats -/

theorem rankRel_total : ∀ p q : α × ℚ, rankRel p q ∨ rankRel q p := by
  intro p q
  unfold rankRel
  rcases lt_trichotomy p.2 q.2 with h | h | h
  · exact Or.inr (Or.inl h)
  · rcases le_total p.1 q.1 with h1 | h1
    · exact Or.inl (Or.inr ⟨h, h1⟩)
    · exact Or.inr (Or.inr ⟨h.symm, h1⟩)
  · exact Or.inl (Or.inl h)

theorem rankRel_trans : ∀ p q r : α × ℚ, rankRel p q → rankRel q r → rankRel p r := by
  intro p q r hpq hqr
  unfold rankRel at hpq hqr ⊢
  rcases hpq with h1 | ⟨h1, h1'⟩ <;> rcases hqr with h2 | ⟨h2, h2'⟩
  · exact Or.inl (h2.trans h1)
  · exact Or.inl (h2 ▸ h1)
  · exact Or.inl (h1 ▸ h2)
  · exact Or.inr ⟨h1.trans h2, h1'.trans h2'⟩

theorem bottomRel_total : ∀ p q : α × ℚ, bottomRel p q ∨ bottomRel q p := by
  intro p q
  unfold bottomRel
  rcases lt_trichotomy p.2 q.2 with h | h | h
  · exact Or.inl (Or.inl h)
  · rcases le_total p.1 q.1 with h1 | h1
    · exact Or.inl (Or.inr ⟨h, h1⟩)
    · exact Or.inr (Or.inr ⟨h.symm, h1⟩)
  · exact Or.inr (Or.inl h)

theorem bottomRel_trans : ∀ p q r : α × ℚ, bottomRel p q → bottomRel q r → bottomRel p r := by
  intro p q r hpq hqr
  unfold bottomRel at hpq hqr ⊢
  rcases hpq with h1 | ⟨h1, h1'⟩ <;> rcases hqr with h2 | ⟨h2, h2'⟩
  · exact Or.inl (h1.trans h2)
  · exact Or.inl (h2 ▸ h1)
  · exact Or.inl (h1 ▸ h2)
  · exact Or.inr ⟨h1.trans h2, h1'.trans h2'⟩

theorem sortL_length (s : Finset α) : (sortL s).length = s.card := by
  have h := sortL_coe s
  have : (↑(sortL s) : Multiset α).card = s.val.card := by rw [h]
  rwa [Multiset.coe_card] at this

theorem top_members {m : MetricStats α} {k : ℕ} {subset : Option (Finset α)}
    {p : α × ℚ} (hp : p ∈ m.top k subset) :
    p.1 ∈ m.base subset ∧ p.2 = m.values p.1 := by
  unfold MetricStats.top at hp
  have hp' := List.mem_of_mem_take hp
  have hp'' := (List.perm_insertionSort rankRel _).mem_iff.1 hp'
  rw [List.mem_map] at hp''
  obtain ⟨a, ha, rfl⟩ := hp''
  exact ⟨mem_sortL.1 ha, rfl⟩

theorem top_sorted (m : MetricStats α) (k : ℕ) (subset : Option (Finset α)) :
    List.Sorted rankRel (m.top k subset) := by
  unfold MetricStats.top
  haveI : IsTotal (α × ℚ) rankRel := ⟨rankRel_total⟩
  haveI : IsTrans (α × ℚ) rankRel := ⟨rankRel_trans⟩
  exact (List.sorted_insertionSort rankRel _).sublist (List.take_sublist _ _)

theorem top_length (m : MetricStats α) (k : ℕ) (subset : Option (Finset α)) :
    (m.top k subset).length = min k (m.base subset).card := by
  unfold MetricStats.top
  rw [List.length_take, (List.perm_insertionSort rankRel _).length_eq,
    List.length_map, sortL_length]

theorem top_selects {m : MetricStats α} {k : ℕ} {subset : Option (Finset α)}
    {p : α × ℚ} (hp : p ∈ m.top k subset) {b : α} (hb : b ∈ m.base subset)
    (hnb : (b, m.values b) ∉ m.top k subset) : rankRel p (b, m.values b) := by
  haveI : IsTotal (α × ℚ) rankRel := ⟨rankRel_total⟩
  haveI : IsTrans (α × ℚ) rankRel := ⟨rankRel_trans⟩
  unfold MetricStats.top at hp hnb
  set S := (((sortL (m.base subset)).map (fun a => (a, m.values a))).insertionSort
    rankRel) with hS
  have hbS : (b, m.values b) ∈ S := by
    rw [hS]
    apply (List.perm_insertionSort rankRel _).symm.subset
    rw [List.mem_map]
    exact ⟨b, mem_sortL.2 hb, rfl⟩
  have hdrop : (b, m.values b) ∈ S.drop k := by
    rw [← List.take_append_drop k S] at hbS
    rcases List.mem_append.1 hbS with h | h
    · exact absurd h hnb
    · exact h
  exact (List.sorted_insertionSort rankRel _).rel_of_mem_take_of_mem_drop hp hdrop

theorem bottom_members {m : MetricStats α} {k : ℕ} {subset : Option (Finset α)}
    {p : α × ℚ} (hp : p ∈ m.bottom k subset) :
    p.1 ∈ m.base subset ∧ p.2 = m.values p.1 := by
  unfold MetricStats.bottom at hp
  have hp' := List.mem_of_mem_take hp
  have hp'' := (List.perm_insertionSort bottomRel _).mem_iff.1 hp'
  rw [List.mem_map] at hp''
  obtain ⟨a, ha, rfl⟩ := hp''
  exact ⟨mem_sortL.1 ha, rfl⟩

theorem bottom_sorted (m : MetricStats α) (k : ℕ) (subset : Option (Finset α)) :
    List.Sorted bottomRel (m.bottom k subset) := by
  unfold MetricStats.bottom
  haveI : IsTotal (α × ℚ) bottomRel := ⟨bottomRel_total⟩
  haveI : IsTrans (α × ℚ) bottomRel := ⟨bottomRel_trans⟩
  exact (List.sorted_insertionSort bottomRel _).sublist (List.take_sublist _ _)

theorem bottom_length (m : MetricStats α) (k : ℕ) (subset : Option (Finset α)) :
    (m.bottom k subset).length = min k (m.base subset).card := by
  unfold MetricStats.bottom
  rw [List.length_take, (List.perm_insertionSort bottomRel _).length_eq,
    List.length_map, sortL_length]

theorem bottom_selects {m : MetricStats α} {k : ℕ} {subset : Option (Finset α)}
    {p : α × ℚ} (hp : p ∈ m.bottom k subset) {b : α} (hb : b ∈ m.base subset)
    (hnb : (b, m.values b) ∉ m.bottom k subset) : bottomRel p (b, m.values b) := by
  haveI : IsTotal (α × ℚ) bottomRel := ⟨bottomRel_total⟩
  haveI : IsTrans (α × ℚ) bottomRel := ⟨bottomRel_trans⟩
  unfold MetricStats.bottom at hp hnb
  set S := (((sortL (m.base subset)).map (fun a => (a, m.values a))).insertionSort
    bottomRel) with hS
  have hbS : (b, m.values b) ∈ S := by
    rw [hS]
    apply (List.perm_insertionSort bottomRel _).symm.subset
    rw [List.mem_map]
    exact ⟨b, mem_sortL.2 hb, rfl⟩
  have hdrop : (b, m.values b) ∈ S.drop k := by
    rw [← List.take_append_drop k S] at hbS
    rcases List.mem_append.1 hbS with h | h
    · exact absurd h hnb
    · exact h
  exact (List.sorted_insertionSort bottomRel _).rel_of_mem_take_of_mem_drop hp hdrop

/-! ### Serialization round-trip -/

theorem csrLengths_scanl : ∀ (ns : List ℕ) (s : ℕ),
    csrLengths (List.scanl (· + ·) s ns) = ns := by
  intro ns
  induction ns with
  | nil =>
    intro s
    rfl
  | cons n ns ih =>
    intro s
    obtain ⟨tl, htl⟩ : ∃ tl, List.scanl (· + ·) (s + n) ns = (s + n) :: tl := by
      cases ns
      · exact ⟨[], rfl⟩
      · rw [List.scanl_cons]
        exact ⟨_, rfl⟩
    have hdrop : (List.scanl (· + ·) (s + n) ns).drop 1 = tl := by
      rw [htl, List.drop_one, List.tail_cons]
    have hcsr : csrLengths (List.scanl (· + ·) (s + n) ns) =
        List.zipWith (fun a b => a - b) tl (List.scanl (· + ·) (s + n) ns) := by
      unfold csrLengths
      rw [hdrop]
    unfold csrLengths
    rw [List.scanl_cons, List.singleton_append, List.drop_one, List.tail_cons, htl,
      List.zipWith_cons_cons, ← htl, ← hcsr, ih (s + n)]
    have hn : s + n - s = n := by omega
    rw [hn]

theorem splitByLengths_flatten : ∀ rows : List (List ℕ),
    splitByLengths (rows.map List.length) rows.flatten = rows := by
  intro rows
  induction rows with
  | nil => rfl
  | cons r rs ih =>
    rw [List.map_cons, List.flatten_cons]
    unfold splitByLengths
    rw [List.take_left, List.drop_left, ih]

theorem decodeCSR_encode (rows : List (List ℕ)) :
    decodeCSR (csrOffsets rows) rows.flatten = rows := by
  unfold decodeCSR csrOffsets
  rw [csrLengths_scanl]
  exact splitByLengths_flatten rows

theorem network_ext {n₁ n₂ : Network α} (h1 : n₁.nodes = n₂.nodes)
    (h2 : n₁.arcs = n₂.arcs) : n₁ = n₂ := by
  rcases n₁ with ⟨no1, a1, p1⟩
  rcases n₂ with ⟨no2, a2, p2⟩
  have h1' : no1 = no2 := h1
  have h2' : a1 = a2 := h2
  subst h1'
  subst h2'
  rfl

theorem getD_map_idxOf {β : Type} (f : α → β) (d : β) {table : List α} {a : α}
    (ha : a ∈ table) : (table.map f).getD (idxOf table a) d = f a := by
  have hlt : table.indexOf a < table.length := List.indexOf_lt_length.2 ha
  have hlt' : table.indexOf a < (table.map f).length := by
    rw [List.length_map]
    exact hlt
  unfold idxOf
  rw [List.getD_eq_getElem _ _ hlt', List.getElem_map, List.getElem_indexOf hlt]

theorem get?_idxOf {table : List α} {a : α} (ha : a ∈ table) :
    table.get? (idxOf table a) = some a := by
  have hlt : table.indexOf a < table.length := List.indexOf_lt_length.2 ha
  unfold idxOf
  rw [List.get?_eq_getElem?, List.getElem?_eq_getElem hlt, List.getElem_indexOf hlt]

theorem filterMap_id_of_some {β : Type} {l : List β} {g : β → Option β}
    (h : ∀ b ∈ l, g b = some b) : l.filterMap g = l := by
  induction l with
  | nil => rfl
  | cons b l ih =>
    rw [List.filterMap_cons, h b (List.mem_cons_self b l),
      ih (fun c hc => h c (List.mem_cons_of_mem b hc))]

theorem decodeNetwork_roundtrip (net : Network α) :
    decodeNetwork (sortL net.nodes)
      ((sortL net.nodes).map
        (fun a => (sortL (succs net a)).map (idxOf (sortL net.nodes)))) = net := by
  apply network_ext
  · exact sortL_toFinset _
  · show ((sortL net.nodes).toFinset.biUnion fun a =>
      (((((sortL net.nodes).map
          (fun a => (sortL (succs net a)).map (idxOf (sortL net.nodes)))).getD
        (idxOf (sortL net.nodes) a) []).filterMap (sortL net.nodes).get?).toFinset).image
        (fun b => (a, b))) = net.arcs
    have hrow : ∀ x ∈ net.nodes,
        ((((sortL net.nodes).map
            (fun a => (sortL (succs net a)).map (idxOf (sortL net.nodes)))).getD
          (idxOf (sortL net.nodes) x) []).filterMap (sortL net.nodes).get?).toFinset =
        succs net x := by
      intro x hx
      rw [getD_map_idxOf _ _ (mem_sortL.2 hx)]
      rw [List.filterMap_map]
      have hself : (sortL (succs net x)).filterMap
          ((sortL net.nodes).get? ∘ idxOf (sortL net.nodes)) = sortL (succs net x) := by
        apply filterMap_id_of_some
        intro b hb
        have hbn : b ∈ net.nodes := succs_subset_nodes net x (mem_sortL.1 hb)
        exact get?_idxOf (mem_sortL.2 hbn)
      rw [hself, sortL_toFinset]
    apply Finset.ext
    rintro ⟨x, y⟩
    rw [Finset.mem_biUnion]
    constructor
    · rintro ⟨a, ha, hmem⟩
      rw [Finset.mem_image] at hmem
      obtain ⟨b, hb, hba⟩ := hmem
      have hax : a = x := congrArg Prod.fst hba
      have hby : b = y := congrArg Prod.snd hba
      subst hax
      subst hby
      have han : a ∈ net.nodes := by
        rw [List.mem_toFinset, mem_sortL] at ha
        exact ha
      rw [hrow a han] at hb
      exact mem_succs.1 hb
    · intro hxy
      have hx : x ∈ net.nodes := (net.arcs_sub _ hxy).1
      refine ⟨x, ?_, ?_⟩
      · rw [List.mem_toFinset, mem_sortL]
        exact hx
      · rw [Finset.mem_image]
        refine ⟨y, ?_, rfl⟩
        rw [hrow x hx]
        exact mem_succs.2 hxy

theorem mem_allKinds (k : MetricKind) : k ∈ allKinds := by
  cases k <;> decide

theorem allKinds_nodup : allKinds.Nodup := by decide

theorem find?_filterMap_none {m : OliviaModel α} {table : List α} {k : MetricKind} :
    ∀ ks : List MetricKind, k ∉ ks →
      ((ks.filterMap fun k' =>
          (m.cache k').map (fun s => (k', table.map s.values))).find?
        (fun e => decide (e.1 = k))) = none := by
  intro ks hk
  rw [List.find?_eq_none]
  intro x hx
  rw [List.mem_filterMap] at hx
  obtain ⟨k', hk', hmap⟩ := hx
  rw [Option.map_eq_some'] at hmap
  obtain ⟨s, _, hs⟩ := hmap
  have hx1 : x.1 = k' := by
    rw [← hs]
  simp only [hx1, decide_eq_true_eq]
  intro hcon
  exact hk (hcon ▸ hk')

theorem find?_metricSection (m : OliviaModel α) (table : List α) (k : MetricKind) :
    ∀ ks : List MetricKind, k ∈ ks → ks.Nodup →
      ((ks.filterMap fun k' =>
          (m.cache k').map (fun s => (k', table.map s.values))).find?
        (fun e => decide (e.1 = k))) =
      (m.cache k).map (fun s => (k, table.map s.values)) := by
  intro ks
  induction ks with
  | nil =>
    intro hmem
    cases hmem
  | cons k' ks ih =>
    intro hmem hnd
    rw [List.nodup_cons] at hnd
    rw [List.filterMap_cons]
    rcases hc : m.cache k' with _ | s
    · simp only [Option.map_none']
      by_cases hkk : k = k'
      · subst hkk
        rw [find?_filterMap_none ks hnd.1, hc]
        rfl
      · have hk : k ∈ ks := by
          rcases List.mem_cons.1 hmem with h | h
          · exact absurd h hkk
          · exact h
        exact ih hk hnd.2
    · simp only [Option.map_some']
      by_cases hkk : k = k'
      · subst hkk
        rw [List.find?_cons_of_pos _ (by simp), hc]
        rfl
      · rw [List.find?_cons_of_neg _ (by simp [Ne.symm hkk])]
        have hk : k ∈ ks := by
          rcases List.mem_cons.1 hmem with h | h
          · exact absurd h hkk
          · exact h
        exact ih hk hnd.2

theorem loadModel_save_net (m : OliviaModel α) :
    (loadModel (save m)).net = m.net := by
  show decodeNetwork (save m).nameTable
    (decodeCSR (save m).fwdOffsets (save m).fwdIndices) = m.net
  have hrows : decodeCSR (save m).fwdOffsets (save m).fwdIndices =
      (sortL m.net.nodes).map
        (fun a => (sortL (succs m.net a)).map (idxOf (sortL m.net.nodes))) :=
    decodeCSR_encode _
  rw [hrows]
  exact decodeNetwork_roundtrip m.net

theorem loadModel_save_cache (m : OliviaModel α) (k : MetricKind) :
    (loadModel (save m)).cache k =
      (m.cache k).map
        (fun s => decodeStats (sortL m.net.nodes)
          ((sortL m.net.nodes).map s.values)) := by
  show (((save m).metricSection.find? (fun e => decide (e.1 = k))).map
    (fun e => decodeStats (save m).nameTable e.2)) = _
  have hsec := find?_metricSection m (sortL m.net.nodes) k allKinds
    (mem_allKinds k) allKinds_nodup
  rw [show (save m).metricSection = allKinds.filterMap
    (fun k' => (m.cache k').map
      (fun s => (k', (sortL m.net.nodes).map s.values))) from rfl, hsec]
  rcases m.cache k with _ | s
  · rfl
  · rfl

theorem decodeStats_values {table : List α} {s : MetricStats α} {a : α}
    (ha : a ∈ table) :
    (decodeStats table (table.map s.values)).values a = s.values a :=
  getD_map_idxOf s.values 0 ha

theorem decodeStats_get_eq {m : OliviaModel α} {s : MetricStats α}
    (hdom : s.dom = m.net.nodes) :
    (decodeStats (sortL m.net.nodes)
      ((sortL m.net.nodes).map s.values)).get = s.get := by
  funext a
  unfold MetricStats.get decodeStats
  simp only [sortL_toFinset, hdom]
  by_cases ha : a ∈ m.net.nodes
  · rw [if_pos ha, if_pos ha]
    have hv := @decodeStats_values _ _ (sortL m.net.nodes) s a (mem_sortL.2 ha)
    exact congrArg some hv
  · rw [if_neg ha, if_neg ha]

theorem get_metric_of_uncached {m : OliviaModel α} {k : MetricKind}
    (h : m.cache k = none) : (get_metric m k).1 = computeMetric m.net k := by
  unfold get_metric
  rw [h]

theorem get_metric_get_roundtrip (m : OliviaModel α) (k : MetricKind) :
    ((get_metric (loadModel (save m)) k).1).get = ((get_metric m k).1).get := by
  rcases hc : m.cache k with _ | s
  · have hl : (loadModel (save m)).cache k = none := by
      rw [loadModel_save_cache, hc]
      rfl
    rw [get_metric_of_uncached hl, get_metric_of_uncached hc, loadModel_save_net]
  · have hl : (loadModel (save m)).cache k =
        some (decodeStats (sortL m.net.nodes)
          ((sortL m.net.nodes).map s.values)) := by
      rw [loadModel_save_cache, hc]
      rfl
    have h1 : (get_metric (loadModel (save m)) k).1 =
        decodeStats (sortL m.net.nodes) ((sortL m.net.nodes).map s.values) :=
      congrArg (fun r => r.1) (get_metric_of_cached hl)
    have h2 : (get_metric m k).1 = s :=
      congrArg (fun r => r.1) (get_metric_of_cached hc)
    rw [h1, h2]
    exact decodeStats_get_eq (m.cache_wf k s hc)

/-! ### The claims -/

/-- C1, counterexample: on the two-cycle network (packages 0 and 1 depending
on each other) the claimed identity `reach(u) = 1 + |transitive_dependants(u)|`
fails at package 0: its reach is 2 while it has 2 transitive dependants
(each cycle member is a transitive dependant of itself). -/
theorem C1_counterexample :
    ¬ (reach cycleTwo 0 = 1 + (transitive_dependants cycleTwo 0).card) := by
  decide

/-- C1, amended: for every package u of a network, `reach(u)` equals the
cardinality of `{u} ∪ transitive_dependants(u)` and `surface(u)` that of
`{u} ∪ transitive_dependencies(u)`; when u does not lie on a dependency
cycle (u is not its own transitive dependant) these equal
`1 + |transitive_dependants(u)|` and `1 + |transitive_dependencies(u)|`
as the spec claims. -/
theorem C1_reach_surface_amended (net : Network α) (u : α) :
    reach net u = (insert u (transitive_dependants net u)).card ∧
    surface net u = (insert u (transitive_dependencies net u)).card ∧
    (u ∉ transitive_dependants net u →
      reach net u = 1 + (transitive_dependants net u).card ∧
      surface net u = 1 + (transitive_dependencies net u).card) := by
  refine ⟨reach_eq_card_insert net u, surface_eq_card_insert net u, ?_⟩
  intro h
  exact ⟨reach_of_not_self_dependant h, surface_of_not_self_dependant h⟩

/-- C2: for every network and every target set, the immunization delta for
the Reach metric computed by the `network` algorithm and by the `analytic`
algorithm agree exactly (the model uses exact rational arithmetic, so the
claimed relative bound of 1e-9 holds with difference zero). -/
theorem C2_algorithm_equivalence (net : Network α) (t : Finset α) :
    immunization_delta net t MetricKind.Reach Algorithm.network =
      Except.ok (analyticDelta net t) ∧
    networkDelta net t MetricKind.Reach = analyticDelta net t ∧
    |networkDelta net t MetricKind.Reach - analyticDelta net t| /
      networkDelta net t MetricKind.Reach ≤ 1 / 1000000000 := by
  refine ⟨?_, networkDelta_eq_analyticDelta net t, ?_⟩
  · show Except.ok (networkDelta net t MetricKind.Reach) = _
    rw [networkDelta_eq_analyticDelta]
  · rw [networkDelta_eq_analyticDelta, sub_self, abs_zero, zero_div]
    norm_num

/-- C3: the network-algorithm immunization delta for Reach is the decrease
in mean Reach caused by removing all out-edges of the target packages; it
is non-negative, and it is monotone in the target set. -/
theorem C3_delta_nonneg_monotone (net : Network α) (t t₁ t₂ : Finset α) :
    immunization_delta net t MetricKind.Reach Algorithm.network =
      Except.ok (failure_vulnerability net MetricKind.Reach -
        failure_vulnerability (removeOutEdges net t) MetricKind.Reach) ∧
    0 ≤ networkDelta net t MetricKind.Reach ∧
    (t₁ ⊆ t₂ →
      networkDelta net t₁ MetricKind.Reach ≤ networkDelta net t₂ MetricKind.Reach) := by
  exact ⟨rfl, networkDelta_reach_nonneg net t, fun h => networkDelta_reach_mono h⟩

/-- C4, counterexample: in the concrete graph a→b, b→c, c→a, d→a (a, b, c, d
numbered 0, 1, 2, 3) the reach of a is 3, not 4 as the spec's scenario
states: a defect in a affects exactly the cycle {a, b, c}, and d is not
reachable from a. -/
theorem C4_counterexample : ¬ (reach cycleNet 0 = 4) := by
  decide

/-- C4, amended: within one SCC all packages share Reach, Impact and
Surface; in the concrete graph a→b, b→c, c→a, d→a the SCCs are {a,b,c} and
{d}, every u in {a,b,c} has reach 3 and impact 3, d has reach 4 and impact
4, and the largest sorted cluster is {a,b,c}. -/
theorem C4_scc_law_amended :
    (∀ {β : Type} [LinearOrder β] (net : Network β) (u v : β),
      v ∈ sccOf net u →
        reach net u = reach net v ∧ impact net u = impact net v ∧
          surface net u = surface net v) ∧
    sccOf cycleNet 0 = {0, 1, 2} ∧ sccOf cycleNet 3 = {3} ∧
    reach cycleNet 0 = 3 ∧ reach cycleNet 1 = 3 ∧ reach cycleNet 2 = 3 ∧
    impact cycleNet 0 = 3 ∧ impact cycleNet 1 = 3 ∧ impact cycleNet 2 = 3 ∧
    reach cycleNet 3 = 4 ∧ impact cycleNet 3 = 4 ∧
    (sorted_clusters cycleNet).getD 0 ∅ = {0, 1, 2} := by
  refine ⟨?_, by decide, by decide, by decide, by decide, by decide, by decide,
    by decide, by decide, by decide, by decide, by decide⟩
  intro β _ net u v hv
  exact ⟨reach_eq_of_mem_sccOf hv, impact_eq_of_mem_sccOf hv,
    surface_eq_of_mem_sccOf hv⟩

/-- C5: for every package u, the transitive couplings of u over its
transitive dependants sum to the Impact of u. -/
theorem C5_coupling_identity (net : Network α) (u : α) :
    ∑ v ∈ transitive_dependants net u, transitive_coupling net u v =
      impact net u :=
  sum_coupling_eq_impact net u

/-- C6: loading a saved model yields a model that answers every public
query identically: same graph (hence same size, membership, iteration
order, per-package views, SCCs and sorted clusters), and `get_metric`
returns stats with identical lookups, the cached kinds included. -/
theorem C6_save_load_roundtrip (m : OliviaModel α) :
    load (save m) = some (loadModel (save m)) ∧
    (loadModel (save m)).net = m.net ∧
    size (loadModel (save m)) = size m ∧
    (∀ a, contains (loadModel (save m)) a ↔ contains m a) ∧
    iterNames (loadModel (save m)) = iterNames m ∧
    (∀ a, direct_dependants (loadModel (save m)).net a = direct_dependants m.net a) ∧
    (∀ a, direct_dependencies (loadModel (save m)).net a =
      direct_dependencies m.net a) ∧
    (∀ a, transitive_dependants (loadModel (save m)).net a =
      transitive_dependants m.net a) ∧
    (∀ a, reach (loadModel (save m)).net a = reach m.net a ∧
      impact (loadModel (save m)).net a = impact m.net a ∧
      surface (loadModel (save m)).net a = surface m.net a ∧
      sccOf (loadModel (save m)).net a = sccOf m.net a) ∧
    sccs (loadModel (save m)).net = sccs m.net ∧
    sorted_clusters (loadModel (save m)).net = sorted_clusters m.net ∧
    (∀ k, ((loadModel (save m)).cache k).isSome = (m.cache k).isSome) ∧
    (∀ k, ((get_metric (loadModel (save m)) k).1).get =
      ((get_metric m k).1).get) := by
  have hnet := loadModel_save_net m
  refine ⟨?_, hnet, ?_, ?_, ?_, ?_, ?_, ?_, ?_, ?_, ?_, ?_, ?_⟩
  · unfold load
    rw [if_pos ⟨rfl, rfl⟩]
  · unfold size
    rw [hnet]
  · intro a
    unfold contains
    rw [hnet]
  · unfold iterNames
    rw [hnet]
  · intro a
    rw [hnet]
  · intro a
    rw [hnet]
  · intro a
    rw [hnet]
  · intro a
    rw [hnet]
    exact ⟨rfl, rfl, rfl, rfl⟩
  · rw [hnet]
  · rw [hnet]
  · intro k
    rw [loadModel_save_cache]
    rcases m.cache k with _ | s <;> rfl
  · exact get_metric_get_roundtrip m

/-- C7: `get_metric` is idempotent: the second call for the same kind
returns the same stats, performs no underlying computation, and leaves the
model unchanged; moreover a cache entry, once present, is never rewritten
by any call. -/
theorem C7_get_metric_idempotent (m : OliviaModel α) (k : MetricKind) :
    (get_metric ((get_metric m k).2.1) k).1 = (get_metric m k).1 ∧
    (get_metric ((get_metric m k).2.1) k).2.2 = false ∧
    (get_metric ((get_metric m k).2.1) k).2.1 = (get_metric m k).2.1 ∧
    (∀ k' s, m.cache k' = some s → ((get_metric m k).2.1).cache k' = some s) := by
  obtain ⟨h1, h2, h3⟩ := get_metric_idempotent m k
  exact ⟨h1, h2, h3, fun k' s h => get_metric_preserves h⟩

/-- C8: `top(k, subset)` returns pairs of the (optionally restricted)
universe with their values, sorted with larger values first and ties broken
by ascending name, of length `min k` the universe size, and every returned
package ranks at least as high as every package left out; `bottom` behaves
analogously with smallest values first; on the path graph 0→1→2→3→4,
`Reach.top(5)` is [(0,5),(1,4),(2,3),(3,2),(4,1)]. -/
theorem C8_top_bottom_ranking (m : MetricStats α) :
    (∀ (k : ℕ) (subset : Option (Finset α)) (p : α × ℚ), p ∈ m.top k subset →
      p.1 ∈ m.base subset ∧ p.2 = m.values p.1) ∧
    (∀ (k : ℕ) (subset : Option (Finset α)),
      List.Sorted rankRel (m.top k subset)) ∧
    (∀ (k : ℕ) (subset : Option (Finset α)),
      (m.top k subset).length = min k (m.base subset).card) ∧
    (∀ (k : ℕ) (subset : Option (Finset α)) (p : α × ℚ) (b : α),
      p ∈ m.top k subset → b ∈ m.base subset →
      (b, m.values b) ∉ m.top k subset → rankRel p (b, m.values b)) ∧
    (∀ (k : ℕ) (subset : Option (Finset α)) (p : α × ℚ), p ∈ m.bottom k subset →
      p.1 ∈ m.base subset ∧ p.2 = m.values p.1) ∧
    (∀ (k : ℕ) (subset : Option (Finset α)),
      List.Sorted bottomRel (m.bottom k subset)) ∧
    (∀ (k : ℕ) (subset : Option (Finset α)),
      (m.bottom k subset).length = min k (m.base subset).card) ∧
    (∀ (k : ℕ) (subset : Option (Finset α)) (p : α × ℚ) (b : α),
      p ∈ m.bottom k subset → b ∈ m.base subset →
      (b, m.values b) ∉ m.bottom k subset → bottomRel p (b, m.values b)) ∧
    pathReachStats.top 5 none = [(0, 5), (1, 4), (2, 3), (3, 2), (4, 1)] ∧
    pathReachStats.bottom 5 none = [(4, 1), (3, 2), (2, 3), (1, 4), (0, 5)] := by
  refine ⟨fun k subset p hp => top_members hp, fun k subset => top_sorted m k subset,
    fun k subset => top_length m k subset,
    fun k subset p b hp hb hnb => top_selects hp hb hnb,
    fun k subset p hp => bottom_members hp,
    fun k subset => bottom_sorted m k subset,
    fun k subset => bottom_length m k subset,
    fun k subset p b hp hb hnb => bottom_selects hp hb hnb,
    by decide, by decide⟩

/-- C9: `immunization_delta` fails with `UnsupportedMetric` exactly when
the analytic algorithm is requested together with a cost metric other than
Reach; with the network algorithm a non-Reach metric such as Impact
succeeds and returns the numeric delta. -/
theorem C9_unsupported_metric (net : Network α) (t : Finset α)
    (cost : MetricKind) (alg : Algorithm) :
    (immunization_delta net t cost alg =
        Except.error ImmunizationError.UnsupportedMetric ↔
      alg = Algorithm.analytic ∧ cost ≠ MetricKind.Reach) ∧
    immunization_delta net t MetricKind.Impact Algorithm.network =
      Except.ok (networkDelta net t MetricKind.Impact) := by
  refine ⟨?_, rfl⟩
  cases alg
  · simp [immunization_delta]
  · by_cases hc : cost = MetricKind.Reach
    · simp [immunization_delta, hc]
    · simp [immunization_delta, hc]

/-- C10: the three coupling-interface query forms agree for every pair of
packages: the `coupling_interface_from` view on v, the
`coupling_interface_to` view on u, and the module-level
`coupling_interface` all return the same set of names. -/
theorem C10_coupling_queries_agree (net : Network α) (u v : α) :
    coupling_interface_from net v u = coupling_interface net u v ∧
    coupling_interface_to net u v = coupling_interface net u v :=
  ⟨coupling_interface_from_eq net u v, coupling_interface_to_eq net u v⟩

end Olivia
